import Mathlib

/-!
Verification development for the TreeMix-Workflow tree-comparison engine
(src/treemix_tests/analysis/find_differences.py).

Python strings are modelled as `List Char`; Python `dict` values as
association lists; Python floats as `ℚ` (all numeric claims below involve
only exactly representable values); a raised exception as an `Except`
error or an `Option` miss.  Iteration order of a Python `set` is not
specified by the language (string hashing is randomized per process), so
functions that iterate a set take the enumeration of its elements as an
explicit list parameter, constrained in theorems to list exactly the
elements of the set without duplicates.
-/

namespace TreeMix

/-- Whitespace test used by the models of Python `str.strip` and `str.split`. -/
def isWsChar (c : Char) : Bool :=
  c == ' ' || c == '\n' || c == '\t' || c == '\r'

/-- Drops leading whitespace. -/
def dropWs (l : List Char) : List Char := l.dropWhile isWsChar

/-- Model of Python `str.strip()`: removes leading and trailing whitespace. -/
def pyStrip (l : List Char) : List Char :=
  ((l.dropWhile isWsChar).reverse.dropWhile isWsChar).reverse

/-- Membership test for a character, modelling Python `c in s`. -/
def hasChar (c : Char) : List Char → Bool
  | [] => false
  | x :: xs => x == c || hasChar c xs

/-- Model of Python `s.split(sep)` for a one-character separator. -/
def splitOnChar (c : Char) : List Char → List (List Char)
  | [] => [[]]
  | x :: xs =>
    let r := splitOnChar c xs
    if x == c then [] :: r
    else
      match r with
      | h :: t => (x :: h) :: t
      | [] => [[x]]

/-- Helper for `pySplitWs`, accumulating the current word reversed. -/
def wordsAux (l : List Char) (acc : List Char) : List (List Char) :=
  match l with
  | [] => if acc.isEmpty then [] else [acc.reverse]
  | c :: cs =>
    if isWsChar c then
      if acc.isEmpty then wordsAux cs [] else acc.reverse :: wordsAux cs []
    else wordsAux cs (c :: acc)

/-- Model of Python `str.split()` with no argument: split on whitespace
runs, producing no empty fields. -/
def pySplitWs (l : List Char) : List (List Char) := wordsAux l []

/-- Decimal digit test. -/
def isDigitCh (c : Char) : Bool := '0' ≤ c && c ≤ '9'

/-- Numeric value of a digit string. -/
def digitsToNat (l : List Char) : Nat :=
  l.foldl (fun n c => 10 * n + (c.toNat - 48)) 0

/-- Modelled from the spec: Python `float(s)` on the decimal literals that
appear in migration lines (§6: `weight(float)`); values such as `0.25` are
exactly representable, so `ℚ` is used.  Returns `none` when the string is
not a decimal literal, modelling the `ValueError` that the extractor
catches. -/
def parseFloatQ (l : List Char) : Option ℚ :=
  let l := pyStrip l
  let p : Int × List Char :=
    match l with
    | '-' :: r => (-1, r)
    | '+' :: r => (1, r)
    | _ => (1, l)
  let sign := p.1
  let l1 := p.2
  let ip := l1.takeWhile isDigitCh
  let r1 := l1.dropWhile isDigitCh
  match r1 with
  | '.' :: r2 =>
    let fp := r2.takeWhile isDigitCh
    let r3 := r2.dropWhile isDigitCh
    if r3.isEmpty && (!ip.isEmpty || !fp.isEmpty) then
      some (mkRat (sign * (digitsToNat ip * 10 ^ fp.length + digitsToNat fp : Nat))
                  (10 ^ fp.length))
    else none
  | [] => if ip.isEmpty then none else some (mkRat (sign * (digitsToNat ip : Nat)) 1)
  | _ => none

mutual
/-- Rooted phylogenetic tree (spec §3): leaves carry a taxon label and a
branch length; internal nodes carry a branch length and children.
Internal-node labels are consumed by the parser but not stored, since no
modelled operation reads them. -/
inductive NTree : Type where
  | leaf : List Char → ℚ → NTree
  | node : ℚ → NTreeList → NTree

/-- Children list of an internal node. -/
inductive NTreeList : Type where
  | nil : NTreeList
  | cons : NTree → NTreeList → NTreeList
end

/-- Converts a plain list of trees to an `NTreeList`. -/
def ofTreeList : List NTree → NTreeList
  | [] => .nil
  | t :: ts => .cons t (ofTreeList ts)

mutual
/-- Leaf taxon labels of a tree, left to right (dendropy `leaf_nodes()`). -/
def leafLabels : NTree → List (List Char)
  | .leaf l _ => [l]
  | .node _ cs => leafLabelsL cs

/-- Leaf taxon labels of a children list, left to right. -/
def leafLabelsL : NTreeList → List (List Char)
  | .nil => []
  | .cons t ts => leafLabels t ++ leafLabelsL ts
end

/-- Set of leaf taxon labels of a tree. -/
def leafSet (t : NTree) : Finset (List Char) := (leafLabels t).toFinset

/-- Character allowed inside an unquoted Newick label. -/
def isLabelChar (c : Char) : Bool :=
  !(c == '(' || c == ')' || c == ',' || c == ':' || c == ';') && !isWsChar c

/-- Parses an optional branch-length suffix `:number`; absent lengths
default to `0`. -/
def pLen (l : List Char) : Option (ℚ × List Char) :=
  match dropWs l with
  | ':' :: r =>
    let r := dropWs r
    let p : Int × List Char := match r with | '-' :: rr => (-1, rr) | _ => (1, r)
    let sign := p.1
    let r0 := p.2
    let ip := r0.takeWhile isDigitCh
    let r2 := r0.dropWhile isDigitCh
    match r2 with
    | '.' :: r3 =>
      let fp := r3.takeWhile isDigitCh
      if ip.isEmpty && fp.isEmpty then none
      else some (mkRat (sign * (digitsToNat ip * 10 ^ fp.length + digitsToNat fp : Nat))
                       (10 ^ fp.length),
                 r3.dropWhile isDigitCh)
    | _ => if ip.isEmpty then none else some (mkRat (sign * (digitsToNat ip : Nat)) 1, r2)
  | _ => some (0, l)

mutual
/-- Fueled recursive-descent parse of one Newick subtree, returning the
tree and the unconsumed input. -/
def pTree : Nat → List Char → Option (NTree × List Char)
  | 0, _ => none
  | Nat.succ f, l =>
    match dropWs l with
    | '(' :: rest =>
      match pTree f rest with
      | none => none
      | some (c, r) =>
        match pMore f r with
        | none => none
        | some (cs, r2) =>
          match dropWs r2 with
          | ')' :: r3 =>
            let r4 := (dropWs r3).dropWhile isLabelChar
            match pLen r4 with
            | none => none
            | some (len, r5) => some (.node len (.cons c cs), r5)
          | _ => none
    | rest =>
      let lbl := rest.takeWhile isLabelChar
      if lbl.isEmpty then none
      else
        match pLen (rest.dropWhile isLabelChar) with
        | none => none
        | some (len, r) => some (.leaf lbl len, r)

/-- Fueled parse of the `("," subtree)*` continuation of a children list. -/
def pMore : Nat → List Char → Option (NTreeList × List Char)
  | 0, _ => none
  | Nat.succ f, l =>
    match dropWs l with
    | ',' :: rest =>
      match pTree f rest with
      | none => none
      | some (c, r) =>
        match pMore f r with
        | none => none
        | some (cs, r2) => some (.cons c cs, r2)
    | _ => some (.nil, l)
end

/-- Modelled from the spec: the external Newick parse used by
`load_single_tree` and the migration extractor (dendropy `Tree.get`,
not part of this repository).  It parses a single statement terminated
by `;` (spec §4.1, §6, glossary); content with trailing non-whitespace
text after the terminator — e.g. a composite tree+migration file — fails
to parse as a single statement (spec §2: the loader, "on failure,
reclassifies it as a composite tree+migration-block file"). -/
def parseNewick (l : List Char) : Option NTree :=
  match pTree (2 * l.length + 4) l with
  | some (t, r) =>
    match dropWs r with
    | ';' :: r2 => if (dropWs r2).isEmpty then some t else none
    | _ => none
  | none => none

mutual
/-- Clade entries (leaf-label set and branch length of the subtending edge)
for every internal node reachable inside a children list, including the
members of the list themselves when they are internal. -/
def cladeEntriesL : NTreeList → List (Finset (List Char) × ℚ)
  | .nil => []
  | .cons t ts => cladeEntriesOf t ++ cladeEntriesL ts

/-- Clade entries of a subtree, including the entry of the subtree itself
when it is an internal node. -/
def cladeEntriesOf : NTree → List (Finset (List Char) × ℚ)
  | .leaf _ _ => []
  | .node len cs => ((leafLabelsL cs).toFinset, len) :: cladeEntriesL cs
end

/-- Modelled from the spec: the bipartition encoding used by the external
dendropy distance functions on rooted trees — the set of taxa below each
internal edge (spec §4.4 wording for `rf_distance`: "bipartitions induced
by an internal edge"; the spec example in §8 fixes the rooted, clade-based
reading).  The root itself subtends no edge and contributes no entry. -/
def cladeEntries : NTree → List (Finset (List Char) × ℚ)
  | .leaf _ _ => []
  | .node _ cs => cladeEntriesL cs

/-- Set of clades (bipartitions) of a tree. -/
def cladeSet (t : NTree) : Finset (Finset (List Char)) :=
  ((cladeEntries t).map Prod.fst).toFinset

/-- Branch length of the edge inducing clade `c` in `t`; `0` when the
clade is absent. -/
def lenOf (t : NTree) (c : Finset (List Char)) : ℚ :=
  (((cladeEntries t).find? (fun p => decide (p.1 = c))).map Prod.snd).getD 0

/-- Modelled from the spec: dendropy `symmetric_difference` — the number
of bipartitions appearing in exactly one of the two trees (spec §4.4). -/
def rfDistance (t1 t2 : NTree) : Nat :=
  ((cladeSet t1 \ cladeSet t2) ∪ (cladeSet t2 \ cladeSet t1)).card

/-- Modelled from the spec: the square of dendropy `euclidean_distance` —
the branch-score distance is the Euclidean norm of the branch-length
difference vector over all bipartitions present in either tree, with
length `0` for an absent bipartition (spec §4.4); its square is rational
and is what the development stores, since the square root of a rational
is irrational in general. -/
def bsdSq (t1 t2 : NTree) : ℚ :=
  (cladeSet t1 ∪ cladeSet t2).sum (fun c => (lenOf t1 c - lenOf t2 c) ^ 2)

/-- Maximum Robinson-Foulds distance used as the normalization denominator
(`max_rf` in `TreeComparator._normalized_rf`). -/
def maxRF (shared : Nat) (rooted : Bool) : Int :=
  if rooted then 2 * ((shared : Int) - 2) else 2 * ((shared : Int) - 3)

/-- Model of `TreeComparator._normalized_rf`: raises (`.error`) when fewer
than 3 shared taxa, returns `0.0` when the maximum RF is nonpositive, and
otherwise divides. -/
def normalized_rf (pruned_rf : Nat) (shared_taxa : Nat) (rooted : Bool) : Except String ℚ :=
  if shared_taxa < 3 then
    .error "At least 3 shared taxa are required for a valid tree comparison."
  else if maxRF shared_taxa rooted ≤ 0 then .ok 0
  else .ok ((pruned_rf : ℚ) / ((maxRF shared_taxa rooted : Int) : ℚ))

/-- Model of `TreeComparator._normalize_bsd`, carried on squares: the code
returns `bsd / branches`; the model returns its square `bsdSq / branches²`
(`0.0` when fewer than 3 shared taxa, as in the code). -/
def normalize_bsd_sq (bsd_sq : ℚ) (shared_taxa : Nat) (rooted : Bool) : ℚ :=
  if shared_taxa < 3 then 0
  else bsd_sq / (((if rooted then 2 * shared_taxa - 2 else 2 * shared_taxa - 3 : Nat) : ℚ)) ^ 2

/-- Result record of `TreeComparator._calculate_distances`; `bsd_sq` and
`normalized_bsd_sq` are the squares of the `bsd` and
`normalized_bsd` floats. -/
structure GlobalDistances where
  jaccard_index : ℚ
  same_taxa : Bool
  rf_distance : Nat
  normalized_rf : ℚ
  bsd_sq : ℚ
  normalized_bsd_sq : ℚ
  tree1_taxa_count : Nat
  tree2_taxa_count : Nat
  common_taxa_count : Nat
  total_unique_taxa : Nat

/-- Model of `TreeComparator._calculate_distances`.  The dict literal in
the code evaluates `jaccard_index` first (a `ZeroDivisionError` when the
union of taxa is empty) and `normalized_rf` next (a `ValueError` when
fewer than 3 shared taxa); either exception aborts the call, modelled by
`.error`. -/
def calculate_distances (t1 t2 : NTree) : Except String GlobalDistances :=
  if (leafSet t1 ∪ leafSet t2).card = 0 then
    .error "ZeroDivisionError: division by zero"
  else
    match normalized_rf (rfDistance t1 t2) (leafSet t1 ∩ leafSet t2).card true with
    | .error e => .error e
    | .ok nrf =>
      .ok
        { jaccard_index :=
            ((leafSet t1 ∩ leafSet t2).card : ℚ) / ((leafSet t1 ∪ leafSet t2).card : ℚ)
          same_taxa := decide (leafSet t1 = leafSet t2)
          rf_distance := rfDistance t1 t2
          normalized_rf := nrf
          bsd_sq := bsdSq t1 t2
          normalized_bsd_sq :=
            normalize_bsd_sq (bsdSq t1 t2) (leafSet t1 ∩ leafSet t2).card true
          tree1_taxa_count := (leafSet t1).card
          tree2_taxa_count := (leafSet t2).card
          common_taxa_count := (leafSet t1 ∩ leafSet t2).card
          total_unique_taxa := (leafSet t1 ∪ leafSet t2).card }

/-- Sibling-comparison record built by `TreeComparator._compare_single_taxon`
for a taxon whose sibling sets differ. -/
structure SiblingRecord where
  siblings1 : Finset (List Char)
  siblings2 : Finset (List Char)
  jaccard_index : ℚ
  only_in_tree1 : Finset (List Char)
  only_in_tree2 : Finset (List Char)

/-- Jaccard index of two sibling sets as computed in
`_compare_single_taxon`: `len(i)/len(u) if union else 0`. -/
def jaccardSets (s1 s2 : Finset (List Char)) : ℚ :=
  if s1 ∪ s2 = ∅ then 0 else ((s1 ∩ s2).card : ℚ) / (((s1 ∪ s2).card : Nat) : ℚ)

/-- Model of `TreeComparator._compare_single_taxon` on the two sibling
sets: returns `none` (taxon omitted) exactly when the Jaccard index is 1. -/
def compare_single_taxon (s1 s2 : Finset (List Char)) : Option SiblingRecord :=
  if jaccardSets s1 s2 = 1 then none
  else some ⟨s1, s2, jaccardSets s1 s2, s1 \ s2, s2 \ s1⟩

/-- Model of `TreeComparator._compare_siblings`: iterates the common taxa
(enumeration passed as a list), collecting the taxa with a record into
`different_populations` and the records themselves. -/
def compare_siblings (common : List (List Char))
    (sib1 sib2 : List Char → Finset (List Char)) :
    List (List Char) × List (List Char × SiblingRecord) :=
  (common.filter (fun p => (compare_single_taxon (sib1 p) (sib2 p)).isSome),
   common.filterMap (fun p => (compare_single_taxon (sib1 p) (sib2 p)).map (fun r => (p, r))))

/-- Tests whether a tree is a leaf carrying the given taxon label. -/
def isLeafWithLabel (t : NTree) (lbl : List Char) : Bool :=
  match t with
  | .leaf l _ => l == lbl
  | .node _ _ => false

/-- Tests whether a children list has a direct leaf child with the label. -/
def anyDirectLeaf : NTreeList → List Char → Bool
  | .nil, _ => false
  | .cons t ts, lbl => isLeafWithLabel t lbl || anyDirectLeaf ts lbl

mutual
/-- Searches for the parent of the leaf labelled `lbl` and returns the
leaf labels under that parent with `lbl` removed; `none` when the leaf is
absent or is the root. -/
def findSibs : NTree → List Char → Option (Finset (List Char))
  | .leaf _ _, _ => none
  | .node _ cs, lbl =>
    if anyDirectLeaf cs lbl then some ((leafLabelsL cs).toFinset \ {lbl})
    else findSibsL cs lbl

/-- Searches a children list for the parent of the leaf labelled `lbl`. -/
def findSibsL : NTreeList → List Char → Option (Finset (List Char))
  | .nil, _ => none
  | .cons t ts, lbl =>
    match findSibs t lbl with
    | some s => some s
    | none => findSibsL ts lbl
end

/-- Model of `TreeComparator._get_sibling_taxa`: empty set when the taxon
is absent or is the root (no parent), otherwise the leaf labels under the
parent excluding the taxon itself. -/
def getSiblingTaxa (t : NTree) (lbl : List Char) : Finset (List Char) :=
  (findSibs t lbl).getD ∅

/-- Mean of a list of rationals (`np.mean`; `np.mean` of an empty list is
NaN, so theorems below assume nonemptiness where the claim does). -/
def listMean (l : List ℚ) : ℚ := l.sum / (l.length : ℚ)

/-- Result record of `TreeComparator._compute_z_score`. -/
structure ZScoreResult (K : Type) where
  mean_delta : ℚ
  std_delta : ℚ
  differences : List (K × ℚ × ℚ)

/-- Value for a key in an association-list dictionary (`0` default is never
reached under the key-membership hypotheses of the theorems below). -/
def dictGet {K : Type} [DecidableEq K] (d : List (K × ℚ)) (k : K) : ℚ :=
  (((d.find? (fun p => decide (p.1 = k))).map Prod.snd)).getD 0

/-- Key set of an association-list dictionary. -/
def dictKeys {K : Type} [DecidableEq K] (d : List (K × ℚ)) : Finset K :=
  (d.map Prod.fst).toFinset

/-- Model of `TreeComparator._compute_z_score`.  `commonKeys` is the
enumeration of the Python set `set(dist1) & set(dist2)` in its iteration
order, which the language does not fix; `sqrtQ` models the square root
inside `np.std` (the population standard deviation is
`sqrtQ` of the population variance). -/
def compute_z_score {K : Type} [DecidableEq K] (sqrtQ : ℚ → ℚ) (commonKeys : List K)
    (d1 d2 : List (K × ℚ)) : ZScoreResult K :=
  let deltas := commonKeys.map (fun k => dictGet d1 k - dictGet d2 k)
  let mean := listMean deltas
  let variance := listMean (deltas.map (fun x => (x - mean) ^ 2))
  let std := sqrtQ variance
  ⟨mean, std,
   commonKeys.map (fun k =>
     (k, dictGet d1 k - dictGet d2 k,
      if std ≠ 0 then (dictGet d1 k - dictGet d2 k - mean) / std else 0))⟩

/-- Migration edge record (spec §3). -/
structure MigrationEdge where
  weight : ℚ
  source : List (List Char)
  target : List (List Char)
deriving DecidableEq

/-- Per-line body of `extract_migration_edges_from_treeout`: `none` models
every skip — a blank line, a line without exactly 6 whitespace-separated
fields, and any caught per-line exception (unparsable weight or
source/target fragment). -/
def parseMigrationLine (line : List Char) : Option MigrationEdge :=
  if (pyStrip line).isEmpty then none
  else
    let parts := pySplitWs (pyStrip line)
    if parts.length ≠ 6 then none
    else
      match parseFloatQ (parts.getD 0 []),
            parseNewick ((parts.getD 4 []) ++ [';']),
            parseNewick ((parts.getD 5 []) ++ [';']) with
      | some w, some s, some t => some ⟨w, leafLabels s, leafLabels t⟩
      | _, _, _ => none

/-- Model of `extract_migration_edges_from_treeout`: takes the segment of
the file between the first and second `;` (`file.split(";")[1]`), splits
it into lines, and keeps every line that parses.  `none` models the
`IndexError` raised when the file contains no `;` at all. -/
def extract_migration_edges (file : List Char) : Option (List MigrationEdge) :=
  match splitOnChar ';' file with
  | _ :: seg :: _ => some ((splitOnChar '\n' seg).filterMap parseMigrationLine)
  | _ => none

/-- Everything after the first `;` of a string (the whole string position
the classifier of spec section 4.1 inspects). -/
def afterFirstSemi (s : List Char) : List Char :=
  (s.dropWhile (fun c => !(c == ';'))).drop 1

/-- Outcome of `load_trees.load_single_tree` for one file.  `tree` is the
returned tree or `.error` for an uncaught dendropy parse exception;
`migration` is `some edges` exactly when the extractor was invoked, i.e.
when the nonlocal `migration_edges` dict received an entry for this path
(the entry is written before the re-parse, so it is recorded even when the
re-parse then fails). -/
structure LoadResult where
  tree : Except Unit NTree
  migration : Option (List MigrationEdge)

/-- Model of `load_trees.load_single_tree`: parse the stripped content;
on failure, if the content contains `;`, extract migration edges and
re-parse the first segment plus `;`; otherwise re-parse the unchanged
content (which fails again). -/
def load_single_tree (content : List Char) : LoadResult :=
  let s := pyStrip content
  match parseNewick s with
  | some t => ⟨.ok t, none⟩
  | none =>
    if hasChar ';' s then
      let edges := (extract_migration_edges s).getD []
      match parseNewick (((splitOnChar ';' s).headD []) ++ [';']) with
      | some t => ⟨.ok t, some edges⟩
      | none => ⟨.error (), some edges⟩
    else
      match parseNewick s with
      | some t => ⟨.ok t, none⟩
      | none => ⟨.error (), none⟩

/-- Boolean success test for an `Except`. -/
def exceptOk {ε α : Type} (e : Except ε α) : Bool :=
  match e with
  | .ok _ => true
  | .error _ => false

/-- Whether `TreeComparator.compare_trees` attaches the `migration_edges`
field for the two loaded files: the comparison runs only when both loads
return (`none` otherwise, the exception propagating out of `main`), and
the field is attached iff the dict `migration_edges` is truthy, i.e.
nonempty — it has an entry for at least one of the two paths. -/
def pipeline_migration_attached (b c : List Char) : Option Bool :=
  match (load_single_tree b).tree with
  | .error _ => none
  | .ok _ =>
    match (load_single_tree c).tree with
    | .error _ => none
    | .ok _ => some ((load_single_tree b).migration.isSome ||
                     (load_single_tree c).migration.isSome)

/-! Helper lemmas about the Python `split` model. -/

theorem splitOnChar_ne_nil (c : Char) (l : List Char) : splitOnChar c l ≠ [] := by
  cases l with
  | nil => simp [splitOnChar]
  | cons x xs =>
    simp only [splitOnChar]
    by_cases h : x == c
    · simp [h]
    · simp only [h]
      cases splitOnChar c xs <;> simp

theorem splitOnChar_of_not_hasChar (c : Char) (l : List Char) (h : hasChar c l = false) :
    splitOnChar c l = [l] := by
  induction l with
  | nil => rfl
  | cons x xs ih =>
    simp only [hasChar, Bool.or_eq_false_iff] at h
    simp only [splitOnChar, h.1, ih h.2]
    simp

theorem splitOnChar_append (c : Char) (pre rest : List Char) (h : hasChar c pre = false) :
    splitOnChar c (pre ++ c :: rest) = pre :: splitOnChar c rest := by
  induction pre with
  | nil => simp [splitOnChar]
  | cons x xs ih =>
    simp only [hasChar, Bool.or_eq_false_iff] at h
    show (if x == c then [] :: splitOnChar c (xs ++ c :: rest)
          else
            match splitOnChar c (xs ++ c :: rest) with
            | h :: t => (x :: h) :: t
            | [] => [[x]]) = (x :: xs) :: splitOnChar c rest
    rw [h.1, ih h.2]
    rfl

theorem hasChar_split (c : Char) (l : List Char) (h : hasChar c l = true) :
    ∃ a b t, splitOnChar c l = a :: b :: t := by
  induction l with
  | nil => simp [hasChar] at h
  | cons x xs ih =>
    simp only [hasChar, Bool.or_eq_true] at h
    by_cases hx : x == c
    · obtain ⟨b, t, hbt⟩ := List.exists_cons_of_ne_nil (splitOnChar_ne_nil c xs)
      exact ⟨[], b, t, by simp [splitOnChar, hx, hbt]⟩
    · have hxs : hasChar c xs = true := by
        rcases h with h | h
        · exact absurd h hx
        · exact h
      obtain ⟨a, b, t, habt⟩ := ih hxs
      exact ⟨x :: a, b, t, by simp [splitOnChar, hx, habt]⟩

/-! Claim theorems. -/

/-- C4: for every rf value and shared-taxa count, `_normalized_rf` raises
when `shared < 3`; for rooted trees with `shared ≥ 3` it returns
`rf / (2·(shared−2))`; and it returns `0.0` whenever the maximum RF
denominator is nonpositive. -/
theorem c4_normalized_rf_spec (rf shared : Nat) (rooted : Bool) :
    (shared < 3 → normalized_rf rf shared rooted =
        .error "At least 3 shared taxa are required for a valid tree comparison.") ∧
    (3 ≤ shared → rooted = true →
        normalized_rf rf shared rooted = .ok ((rf : ℚ) / (2 * ((shared : ℚ) - 2)))) ∧
    (3 ≤ shared → maxRF shared rooted ≤ 0 → normalized_rf rf shared rooted = .ok 0) := by
  refine ⟨fun h => by simp [normalized_rf, h], fun h hr => ?_, fun h hle => ?_⟩
  · subst hr
    have hmax : maxRF shared true = 2 * ((shared : Int) - 2) := by simp [maxRF]
    have hpos : ¬ maxRF shared true ≤ 0 := by rw [hmax]; omega
    simp only [normalized_rf, if_neg (by omega : ¬ shared < 3)]
    rw [if_neg hpos, hmax]
    congr 1
    push_cast
    ring
  · simp [normalized_rf, if_neg (by omega : ¬ shared < 3), hle]

theorem c4_normalized_rf_spec_witness :
    (normalized_rf 5 2 true =
        .error "At least 3 shared taxa are required for a valid tree comparison.") ∧
    (normalized_rf 4 4 true = .ok ((4 : ℚ) / (2 * ((4 : ℚ) - 2)))) ∧
    (normalized_rf 7 3 false = .ok 0) :=
  ⟨(c4_normalized_rf_spec 5 2 true).1 (by omega),
   (c4_normalized_rf_spec 4 4 true).2.1 (by omega) rfl,
   (c4_normalized_rf_spec 7 3 false).2.2 (by omega) (by decide)⟩

/-- C10: the extractor returns nothing but an index error when its input
has no `;` (modelled by `none`), before any line is examined; when a `;`
is present it processes exactly the text between the first and second `;`,
so that text beyond a second `;` never changes the result. -/
theorem c10_extractor_semicolon :
    (∀ s : List Char, hasChar ';' s = false → extract_migration_edges s = none) ∧
    (∀ s : List Char, hasChar ';' s = true →
        extract_migration_edges s =
          some ((splitOnChar '\n' ((splitOnChar ';' s).getD 1 [])).filterMap
            parseMigrationLine)) ∧
    (∀ pre mid post : List Char, hasChar ';' pre = false → hasChar ';' mid = false →
        extract_migration_edges (pre ++ [';'] ++ mid ++ [';'] ++ post) =
          extract_migration_edges (pre ++ [';'] ++ mid ++ [';'])) := by
  refine ⟨fun s h => ?_, fun s h => ?_, fun pre mid post hp hm => ?_⟩
  · simp [extract_migration_edges, splitOnChar_of_not_hasChar ';' s h]
  · obtain ⟨a, b, t, habt⟩ := hasChar_split ';' s h
    simp [extract_migration_edges, habt]
  · have h1 : pre ++ [';'] ++ mid ++ [';'] ++ post = pre ++ ';' :: (mid ++ ';' :: post) := by
      simp
    have h2 : pre ++ [';'] ++ mid ++ [';'] = pre ++ ';' :: (mid ++ ';' :: ([] : List Char)) := by
      simp
    rw [h1, h2, extract_migration_edges, extract_migration_edges,
        splitOnChar_append ';' pre _ hp, splitOnChar_append ';' pre _ hp,
        splitOnChar_append ';' mid _ hm, splitOnChar_append ';' mid _ hm]

theorem c10_extractor_semicolon_witness :
    (extract_migration_edges "0.25 x x x (A,B) (C,D)".toList = none) ∧
    (extract_migration_edges ";ab".toList =
      some ((splitOnChar '\n' ((splitOnChar ';' ";ab".toList).getD 1 [])).filterMap
        parseMigrationLine)) ∧
    (extract_migration_edges ("ab".toList ++ [';'] ++ "cd".toList ++ [';'] ++ "ef".toList) =
      extract_migration_edges ("ab".toList ++ [';'] ++ "cd".toList ++ [';'])) :=
  ⟨c10_extractor_semicolon.1 _ (by rfl),
   c10_extractor_semicolon.2.1 _ (by rfl),
   c10_extractor_semicolon.2.2 "ab".toList "cd".toList "ef".toList (by rfl) (by rfl)⟩

/-- C5: the extractor skips blank lines and lines without exactly 6
whitespace-separated fields, and a failing line never aborts the batch
(every skip is a `none` of the total per-line function, so extraction on
any input with a `;` still returns a list); the line
`0.25 x x x (A,B) (C,D)` yields weight `1/4`, source `[A, B]` and target
`[C, D]`, and a preceding 5-field line is skipped while the good line is
still extracted. -/
theorem c5_extractor_line_policy :
    (∀ line : List Char, (pyStrip line).isEmpty = true → parseMigrationLine line = none) ∧
    (∀ line : List Char, (pySplitWs (pyStrip line)).length ≠ 6 →
        parseMigrationLine line = none) ∧
    (∀ s : List Char, hasChar ';' s = true → (extract_migration_edges s).isSome = true) ∧
    ((extract_migration_edges ";\n0.25 x x x (A,B) (C,D)".toList).map
        (fun es => es.map (fun e => (e.source, e.target))) =
      some [([['A'], ['B']], [['C'], ['D']])]) ∧
    ((extract_migration_edges ";\n0.25 x x x (A,B) (C,D)".toList).map
        (fun es => es.map MigrationEdge.weight) = some [(1/4 : ℚ)]) ∧
    ((extract_migration_edges ";\n0.2 x x a (A,B)\n0.25 x x x (A,B) (C,D)".toList).map
        (fun es => es.map (fun e => (e.source, e.target))) =
      some [([['A'], ['B']], [['C'], ['D']])]) := by
  refine ⟨fun line h => by simp [parseMigrationLine, h], fun line h => ?_, fun s h => ?_,
          by rfl, ?_, by rfl⟩
  · by_cases he : (pyStrip line).isEmpty <;> simp [parseMigrationLine, he, h]
  · obtain ⟨a, b, t, habt⟩ := hasChar_split ';' s h
    simp [extract_migration_edges, habt]
  · have h : (extract_migration_edges ";\n0.25 x x x (A,B) (C,D)".toList).map
        (fun es => es.map MigrationEdge.weight) = some [mkRat 1 4] := by rfl
    rw [h, Rat.mkRat_eq_div]
    norm_num

theorem c5_extractor_line_policy_witness :
    (parseMigrationLine "   ".toList = none) ∧
    (parseMigrationLine "0.2 x x a (A,B)".toList = none) ∧
    ((extract_migration_edges ";".toList).isSome = true) :=
  ⟨c5_extractor_line_policy.1 _ (by rfl),
   c5_extractor_line_policy.2.1 _ (by decide),
   c5_extractor_line_policy.2.2.1 _ (by rfl)⟩

/-- C1 counterexample: for the content `((A,B);` only whitespace (nothing)
remains after the first `;`, so the claimed classifier would parse the
whole content directly and perform no migration extraction; the code
instead catches the parse failure and, because a `;` is present, invokes
the migration extractor (the nonlocal dict receives an entry), showing the
classification is exception-driven. -/
theorem c1_claim_counterexample :
    hasChar ';' (pyStrip "((A,B);".toList) = true ∧
    (afterFirstSemi (pyStrip "((A,B);".toList)).all isWsChar = true ∧
    (load_single_tree "((A,B);".toList).migration.isSome = true := by
  exact ⟨by rfl, by rfl, by rfl⟩

/-- C1 amended: `load_single_tree` first parses the whole stripped content;
migration extraction is invoked exactly when that parse fails and the
content contains a `;`; in that case the extractor receives the content
(reading the segment between the first and second `;`) and the first
`;`-segment plus `;` is re-parsed as the tree.  Classification is
exception-driven, not an explicit content inspection. -/
theorem c1_loader_exception_driven (content : List Char) :
    ((load_single_tree content).migration.isSome
        = ((parseNewick (pyStrip content)).isNone && hasChar ';' (pyStrip content))) ∧
    (∀ t, parseNewick (pyStrip content) = some t →
        load_single_tree content = ⟨.ok t, none⟩) ∧
    (parseNewick (pyStrip content) = none → hasChar ';' (pyStrip content) = true →
        (load_single_tree content).migration
            = some ((extract_migration_edges (pyStrip content)).getD []) ∧
        (load_single_tree content).tree
            = (match parseNewick (((splitOnChar ';' (pyStrip content)).headD []) ++ [';']) with
               | some t => .ok t
               | none => .error ())) := by
  refine ⟨?_, ?_, ?_⟩
  · cases hp : parseNewick (pyStrip content) with
    | some t => simp [load_single_tree, hp]
    | none =>
      by_cases hc : hasChar ';' (pyStrip content) = true
      · simp only [load_single_tree, hp, hc, if_true, Option.isNone_none, Bool.true_and]
        cases hq : parseNewick (((splitOnChar ';' (pyStrip content)).headD []) ++ [';']) <;>
          simp [hq]
      · simp [load_single_tree, hp, hc]
  · intro t ht
    simp [load_single_tree, ht]
  · intro hp hc
    simp only [load_single_tree, hp, hc, if_true]
    cases hq : parseNewick (((splitOnChar ';' (pyStrip content)).headD []) ++ [';']) <;>
      simp [hq]

theorem c1_loader_exception_driven_witness :
    (load_single_tree "(A,B);x".toList).migration
        = some ((extract_migration_edges (pyStrip "(A,B);x".toList)).getD []) ∧
    (load_single_tree "(A,B);x".toList).tree
        = (match parseNewick (((splitOnChar ';' (pyStrip "(A,B);x".toList)).headD []) ++ [';']) with
           | some t => .ok t
           | none => .error ()) :=
  (c1_loader_exception_driven "(A,B);x".toList).2.2 (by rfl) (by rfl)

/-- C2 counterexample: the two-element key intersection (A and B) of the dictionary
with itself admits the two set enumerations `[A, B]` and `[B, A]` (Python
fixes no iteration order for a set of strings across runs), and the
`differences` lists they produce carry the keys in the two different
orders — the entries are emitted in set-iteration order, not by a
deterministic key sort. -/
theorem c2_claim_counterexample :
    ([['A'], ['B']] : List (List Char)).Nodup ∧
    ([['B'], ['A']] : List (List Char)).Nodup ∧
    ([['A'], ['B']] : List (List Char)).toFinset
        = dictKeys [(['A'], (0 : ℚ)), (['B'], 1)] ∩ dictKeys [(['A'], (0 : ℚ)), (['B'], 1)] ∧
    ([['B'], ['A']] : List (List Char)).toFinset
        = dictKeys [(['A'], (0 : ℚ)), (['B'], 1)] ∩ dictKeys [(['A'], (0 : ℚ)), (['B'], 1)] ∧
    (compute_z_score (fun _ => 0) [['A'], ['B']]
          [(['A'], (0 : ℚ)), (['B'], 1)] [(['A'], (0 : ℚ)), (['B'], 1)]).differences.map
        Prod.fst ≠
      (compute_z_score (fun _ => 0) [['B'], ['A']]
          [(['A'], (0 : ℚ)), (['B'], 1)] [(['A'], (0 : ℚ)), (['B'], 1)]).differences.map
        Prod.fst := by
  refine ⟨by decide, by decide, by decide, by decide, ?_⟩
  simp only [compute_z_score]
  decide

/-- C2 amended: over any enumeration of the key intersection (the
iteration order of the Python set `common_keys`, not fixed by the
language), `zScore` emits exactly one `(key, delta, z)` entry per
intersection key with `delta = d1[k] − d2[k]`, the entries appearing in
the enumeration order rather than in an order determined by the keys. -/
theorem c2_zscore_entries {K : Type} [DecidableEq K] (sqrtQ : ℚ → ℚ) (enum : List K)
    (d1 d2 : List (K × ℚ)) (hnd : enum.Nodup)
    (hset : enum.toFinset = dictKeys d1 ∩ dictKeys d2) :
    ((compute_z_score sqrtQ enum d1 d2).differences.map Prod.fst = enum) ∧
    ((compute_z_score sqrtQ enum d1 d2).differences.map Prod.fst).Nodup ∧
    (((compute_z_score sqrtQ enum d1 d2).differences.map Prod.fst).toFinset
        = dictKeys d1 ∩ dictKeys d2) ∧
    (∀ e ∈ (compute_z_score sqrtQ enum d1 d2).differences,
        e.2.1 = dictGet d1 e.1 - dictGet d2 e.1) := by
  have hfst : (compute_z_score sqrtQ enum d1 d2).differences.map Prod.fst = enum := by
    simp only [compute_z_score, List.map_map]
    exact List.map_id'' (fun x => rfl) enum
  refine ⟨hfst, ?_, ?_, ?_⟩
  · rw [hfst]; exact hnd
  · rw [hfst]; exact hset
  intro e he
  simp only [compute_z_score, List.mem_map] at he
  obtain ⟨k, _, hk⟩ := he
  rw [← hk]

theorem c2_zscore_entries_witness :
    ((compute_z_score (fun _ => 0) [['A']] [(['A'], (2 : ℚ))]
        [(['A'], (1 : ℚ))]).differences.map Prod.fst = [['A']]) ∧
    (((compute_z_score (fun _ => 0) [['A']] [(['A'], (2 : ℚ))]
        [(['A'], (1 : ℚ))]).differences.map Prod.fst).Nodup) ∧
    (((compute_z_score (fun _ => 0) [['A']] [(['A'], (2 : ℚ))]
        [(['A'], (1 : ℚ))]).differences.map Prod.fst).toFinset
        = dictKeys [(['A'], (2 : ℚ))] ∩ dictKeys [(['A'], (1 : ℚ))]) ∧
    (∀ e ∈ (compute_z_score (fun _ => 0) [['A']] [(['A'], (2 : ℚ))]
        [(['A'], (1 : ℚ))]).differences,
        e.2.1 = dictGet [(['A'], (2 : ℚ))] e.1 - dictGet [(['A'], (1 : ℚ))] e.1) :=
  c2_zscore_entries (fun _ => 0) [['A']] [(['A'], (2 : ℚ))] [(['A'], (1 : ℚ))]
    (by decide) (by decide)

/-- C3 counterexample: the comparison file `((A,B),(C,D));` followed by the
malformed migration line `x y` fails the initial whole-content parse, so
the extractor is invoked; the line has 2 fields and is skipped, so zero
migration-edge records are extracted — yet the `migration_edges` dict has
an entry (an empty list) for that path, the dict is truthy, and the field
is attached to the comparison result. -/
theorem c3_claim_counterexample :
    pipeline_migration_attached "(A,B);".toList "((A,B),(C,D));\nx y".toList = some true ∧
    (load_single_tree "(A,B);".toList).migration = none ∧
    (load_single_tree "((A,B),(C,D));\nx y".toList).migration = some [] := by
  exact ⟨by rfl, by rfl, by rfl⟩

/-- C3 amended: the `migration_edges` field is attached iff the
`migration_edges` dict is nonempty, i.e. iff migration extraction was
invoked for at least one of the two input files; an invocation that
extracts zero edge records still attaches the field. -/
theorem c3_migration_attached_iff (b c : List Char) :
    pipeline_migration_attached b c = some true ↔
      (exceptOk (load_single_tree b).tree = true ∧
       exceptOk (load_single_tree c).tree = true ∧
       ((load_single_tree b).migration.isSome = true ∨
        (load_single_tree c).migration.isSome = true)) := by
  unfold pipeline_migration_attached exceptOk
  cases (load_single_tree b).tree with
  | error e => simp
  | ok t1 =>
    cases (load_single_tree c).tree with
    | error e => simp
    | ok t2 =>
      simp [Bool.or_eq_true]

/-! Helper lemmas for the self-comparison and example claims. -/

theorem rf_self (t : NTree) : rfDistance t t = 0 := by
  simp [rfDistance]

theorem bsdSq_self (t : NTree) : bsdSq t t = 0 := by
  simp [bsdSq, sub_self, pow_two]

theorem calculate_distances_self (t : NTree) (h : 3 ≤ (leafSet t).card) :
    calculate_distances t t =
      .ok ⟨1, true, 0, 0, 0, 0, (leafSet t).card, (leafSet t).card,
           (leafSet t).card, (leafSet t).card⟩ := by
  have hcard : ¬ (leafSet t).card = 0 := by omega
  have hnr : normalized_rf 0 (leafSet t).card true = .ok 0 := by
    have hmax : maxRF (leafSet t).card true = 2 * (((leafSet t).card : Int) - 2) := by
      simp [maxRF]
    have hpos : ¬ maxRF (leafSet t).card true ≤ 0 := by rw [hmax]; omega
    simp only [normalized_rf, if_neg (by omega : ¬ (leafSet t).card < 3), if_neg hpos,
               Nat.cast_zero, zero_div]
  have hj : ((leafSet t).card : ℚ) / ((leafSet t).card : ℚ) = 1 :=
    div_self (Nat.cast_ne_zero.mpr hcard)
  have hnb : normalize_bsd_sq 0 (leafSet t).card true = 0 := by
    simp [normalize_bsd_sq]
  have hnemp : ¬ leafSet t = ∅ := by
    intro hemp
    rw [hemp] at h
    simp at h
  simp [calculate_distances, Finset.inter_self, Finset.union_self, if_neg hcard,
        rf_self, bsdSq_self, hnr, hj, hnb, hnemp]

theorem listMean_zeros {α : Type} (l : List α) (f : α → ℚ) (h : ∀ a ∈ l, f a = 0) :
    listMean (l.map f) = 0 := by
  have hs : (l.map f).sum = 0 := by
    refine List.sum_eq_zero ?_
    intro x hx
    obtain ⟨a, ha, rfl⟩ := List.mem_map.mp hx
    exact h a ha
  simp [listMean, hs]

/-! Remaining claim theorems. -/

/-- Tree parsed from the spec example string `((A,B),(C,D));`. -/
def c6tree1 : NTree := (parseNewick "((A,B),(C,D));".toList).getD (.leaf [] 0)

/-- Tree parsed from the spec example string `((A,C),(B,D));`. -/
def c6tree2 : NTree := (parseNewick "((A,C),(B,D));".toList).getD (.leaf [] 0)

/-- C6: for the rooted input trees `((A,B),(C,D));` and `((A,C),(B,D));`
the computed distances report 4 shared taxa, `rf_distance = 4` and
`normalized_rf = 1` (maximum RF `2·(4−2) = 4`). -/
theorem c6_example_distances :
    (parseNewick "((A,B),(C,D));".toList).isSome = true ∧
    (parseNewick "((A,C),(B,D));".toList).isSome = true ∧
    (calculate_distances c6tree1 c6tree2).toOption.map
        (fun r => (r.common_taxa_count, r.rf_distance)) = some (4, 4) ∧
    (calculate_distances c6tree1 c6tree2).toOption.map
        (fun r => r.normalized_rf) = some 1 := by
  refine ⟨by rfl, by rfl, by rfl, ?_⟩
  have h4 : (leafSet c6tree1 ∩ leafSet c6tree2).card = 4 := by rfl
  have hrf : rfDistance c6tree1 c6tree2 = 4 := by rfl
  have hu : (leafSet c6tree1 ∪ leafSet c6tree2).card = 4 := by rfl
  simp only [calculate_distances, h4, hrf, hu, normalized_rf, maxRF]
  norm_num
  exact ⟨_, rfl, rfl⟩

/-- C7: comparing any tree with at least 3 taxa against itself yields
`jaccard_index = 1`, `same_taxa = true`, `rf_distance = 0` and a zero
branch-score distance (`bsd = 0` iff its square is `0`). -/
theorem c7_self_comparison (t : NTree) (h : 3 ≤ (leafSet t).card) :
    ∃ r, calculate_distances t t = .ok r ∧ r.jaccard_index = 1 ∧ r.same_taxa = true ∧
      r.rf_distance = 0 ∧ r.bsd_sq = 0 :=
  ⟨_, calculate_distances_self t h, rfl, rfl, rfl, rfl⟩

theorem c7_self_comparison_witness :
    3 ≤ (leafSet (NTree.node 0 (ofTreeList
        [NTree.leaf ['A'] 0, NTree.leaf ['B'] 0, NTree.leaf ['C'] 0]))).card ∧
    ∃ r, calculate_distances
        (NTree.node 0 (ofTreeList [NTree.leaf ['A'] 0, NTree.leaf ['B'] 0, NTree.leaf ['C'] 0]))
        (NTree.node 0 (ofTreeList [NTree.leaf ['A'] 0, NTree.leaf ['B'] 0, NTree.leaf ['C'] 0]))
        = .ok r ∧
      r.jaccard_index = 1 ∧ r.same_taxa = true ∧ r.rf_distance = 0 ∧ r.bsd_sq = 0 :=
  ⟨by decide, c7_self_comparison _ (by decide)⟩

/-- C8: `zScore(d, d)` on a nonempty key enumeration returns
`mean_delta = 0`, a zero standard deviation, and `z = 0` (and `delta = 0`)
for every entry — the zero standard deviation degrades to `z = 0` instead
of dividing by zero. -/
theorem c8_zscore_self {K : Type} [DecidableEq K] (sqrtQ : ℚ → ℚ) (enum : List K)
    (d : List (K × ℚ)) (hroot : sqrtQ 0 = 0) (_hne : enum ≠ []) :
    (compute_z_score sqrtQ enum d d).mean_delta = 0 ∧
    (compute_z_score sqrtQ enum d d).std_delta = 0 ∧
    ∀ e ∈ (compute_z_score sqrtQ enum d d).differences, e.2.1 = 0 ∧ e.2.2 = 0 := by
  have hg : ∀ a ∈ enum, (fun k => dictGet d k - dictGet d k) a = 0 := fun a _ => sub_self _
  have hmean := listMean_zeros enum _ hg
  have hvar : listMean ((enum.map (fun k => dictGet d k - dictGet d k)).map
      (fun x => (x - listMean (enum.map (fun k => dictGet d k - dictGet d k))) ^ 2)) = 0 := by
    rw [List.map_map]
    refine listMean_zeros enum _ ?_
    intro a ha
    simp only [Function.comp_apply]
    rw [sub_self, hmean]
    norm_num
  refine ⟨hmean, ?_, ?_⟩
  · show sqrtQ _ = 0
    rw [hvar, hroot]
  · intro e he
    simp only [compute_z_score, List.mem_map] at he
    obtain ⟨k, hk, rfl⟩ := he
    refine ⟨sub_self _, ?_⟩
    show (if sqrtQ _ ≠ 0 then _ else 0) = 0
    rw [hvar, hroot]
    simp

theorem c8_zscore_self_witness :
    (compute_z_score (fun _ => 0) [['A']] [(['A'], (7 : ℚ))]
        [(['A'], (7 : ℚ))]).mean_delta = 0 ∧
    (compute_z_score (fun _ => 0) [['A']] [(['A'], (7 : ℚ))]
        [(['A'], (7 : ℚ))]).std_delta = 0 ∧
    ∀ e ∈ (compute_z_score (fun _ => 0) [['A']] [(['A'], (7 : ℚ))]
        [(['A'], (7 : ℚ))]).differences, e.2.1 = 0 ∧ e.2.2 = 0 :=
  c8_zscore_self (fun _ => 0) [['A']] [(['A'], (7 : ℚ))] rfl (by simp)

/-- C9: a common taxon whose sibling set is empty in both trees (for
example the root of a single-leaf tree) receives `jaccard_index = 0` and
is recorded in `different_populations` even though the two sibling sets
are equal, and a taxon is omitted exactly when its Jaccard index is 1. -/
theorem c9_empty_siblings_recorded (common : List (List Char))
    (sib1 sib2 : List Char → Finset (List Char)) (pop : List Char)
    (hmem : pop ∈ common) (h1 : sib1 pop = ∅) (h2 : sib2 pop = ∅) :
    pop ∈ (compare_siblings common sib1 sib2).1 ∧
    (∃ r, compare_single_taxon (sib1 pop) (sib2 pop) = some r ∧ r.jaccard_index = 0) ∧
    (∀ s1 s2 : Finset (List Char),
        compare_single_taxon s1 s2 = none ↔ jaccardSets s1 s2 = 1) := by
  have hj : jaccardSets (sib1 pop) (sib2 pop) = 0 := by
    rw [h1, h2]
    simp [jaccardSets]
  have hsome : compare_single_taxon (sib1 pop) (sib2 pop) =
      some ⟨sib1 pop, sib2 pop, jaccardSets (sib1 pop) (sib2 pop),
            sib1 pop \ sib2 pop, sib2 pop \ sib1 pop⟩ := by
    unfold compare_single_taxon
    rw [if_neg (by rw [hj]; norm_num)]
  refine ⟨?_, ⟨_, hsome, hj⟩, ?_⟩
  · simp only [compare_siblings]
    refine List.mem_filter.mpr ⟨hmem, ?_⟩
    rw [hsome]
    rfl
  · intro s1 s2
    unfold compare_single_taxon
    by_cases hq : jaccardSets s1 s2 = 1
    · simp [hq]
    · simp [hq]

theorem c9_empty_siblings_recorded_witness :
    ['A'] ∈ (compare_siblings [['A']]
        (fun p => getSiblingTaxa (NTree.leaf ['A'] 0) p)
        (fun p => getSiblingTaxa (NTree.leaf ['A'] 0) p)).1 ∧
    (∃ r, compare_single_taxon (getSiblingTaxa (NTree.leaf ['A'] 0) ['A'])
        (getSiblingTaxa (NTree.leaf ['A'] 0) ['A']) = some r ∧ r.jaccard_index = 0) ∧
    (∀ s1 s2 : Finset (List Char),
        compare_single_taxon s1 s2 = none ↔ jaccardSets s1 s2 = 1) :=
  c9_empty_siblings_recorded [['A']] _ _ ['A'] (by decide) (by rfl) (by rfl)

end TreeMix
